import Mathlib

/-!
Verification of the starbox core pipeline (src/main.rs): cube-face
projection (`project`), pixel addressing (`address`) and the per-pixel
irradiance/temperature accumulator from `run`.

Floating-point arithmetic (`f32`, with `f16` reduced-precision storage) is
embedded as exact rational arithmetic over `ℚ`; the `f16 -> f32 -> f16`
round trips performed by the pixel buffer are modelled as the identity, and
the clamp constant is the largest finite `f16` value, 65504.  Rust's
saturating `f32 as u32` cast (truncation toward zero, negatives to 0) is
modelled by `Int.floor` followed by `Int.toNat`; the `u32` subtraction
`res - 1` is modelled as rational subtraction, which agrees with the source
whenever `1 ≤ res`.
-/

namespace Starbox

/-- The six cube faces, with the ordinals given by the Rust `enum Face`
discriminants (`PX = 0, NX = 1, PY = 2, NY = 3, PZ = 4, NZ = 5`). -/
inductive Face where
  | PX
  | NX
  | PY
  | NY
  | PZ
  | NZ
deriving DecidableEq, Repr

/-- Rust `face as u32`: the discriminant of the Rust `Face` enum. -/
def Face.ord : Face → ℕ
  | .PX => 0
  | .NX => 1
  | .PY => 2
  | .NY => 3
  | .PZ => 4
  | .NZ => 5

/-- Embedding of `fn project(res: u32, n: Vector3<f32>) -> (Face, Vector2<f32>)` from
src/main.rs, over exact rationals.  `|·|` embeds `f32::abs`. -/
def project (res : ℕ) (x y z : ℚ) : Face × ℚ × ℚ :=
  if |x| ≥ |y| ∧ |x| ≥ |z| then
    if |x| = 0 then
      (Face.PX, (0, 0))
    else
      ((if 0 < x then Face.PX else Face.NX),
        ((y / |x| + 1) / 2 * ((res : ℚ) - 1), (z / |x| + 1) / 2 * ((res : ℚ) - 1)))
  else if |y| ≥ |z| then
    ((if 0 < y then Face.PY else Face.NY),
      ((x / |y| + 1) / 2 * ((res : ℚ) - 1), (z / |y| + 1) / 2 * ((res : ℚ) - 1)))
  else
    ((if 0 < z then Face.PZ else Face.NZ),
      ((x / |z| + 1) / 2 * ((res : ℚ) - 1), (y / |z| + 1) / 2 * ((res : ℚ) - 1)))

/-- The projection as the spec sentence literally reads: the two remaining
*signed* components are divided by the *signed* dominant component (the
source instead divides by its absolute value).  Kept only to compare with
`project`. -/
def projectSpecSigned (res : ℕ) (x y z : ℚ) : Face × ℚ × ℚ :=
  if |x| ≥ |y| ∧ |x| ≥ |z| then
    if |x| = 0 then
      (Face.PX, (0, 0))
    else
      ((if 0 < x then Face.PX else Face.NX),
        ((y / x + 1) / 2 * ((res : ℚ) - 1), (z / x + 1) / 2 * ((res : ℚ) - 1)))
  else if |y| ≥ |z| then
    ((if 0 < y then Face.PY else Face.NY),
      ((x / y + 1) / 2 * ((res : ℚ) - 1), (z / y + 1) / 2 * ((res : ℚ) - 1)))
  else
    ((if 0 < z then Face.PZ else Face.NZ),
      ((x / z + 1) / 2 * ((res : ℚ) - 1), (y / z + 1) / 2 * ((res : ℚ) - 1)))

/-- The spec remap `(v+1)/2·(resolution-1)` from face-space `[-1,1]` to
pixel space. -/
def remap (res : ℕ) (t : ℚ) : ℚ := (t + 1) / 2 * ((res : ℚ) - 1)

/-- Rust's saturating `f32 as u32` cast on a nonnegative in-range value:
truncation toward zero; a negative argument saturates to `0`. -/
def rustCastU32 (q : ℚ) : ℕ := (⌊q⌋).toNat

/-- Embedding of `fn address(res: u32, face: Face, pos: Vector2<f32>) -> u32` from
src/main.rs: the per-face "vertical cross" transform followed by the final
truncating casts in `x as u32 + y as u32 * res`. -/
def address (res : ℕ) (face : Face) (pos : ℚ × ℚ) : ℕ :=
  let y_min : ℚ := (face.ord * res : ℕ)
  let y_max : ℚ := y_min + ((res : ℚ) - 1)
  let x_max : ℚ := (res : ℚ) - 1
  let xy : ℚ × ℚ :=
    match face with
    | .PX => (pos.2, y_max - pos.1)
    | .NX => (x_max - pos.2, y_max - pos.1)
    | .PY => (pos.1, y_max - pos.2)
    | .NY => (pos.1, y_min + pos.2)
    | .PZ => (x_max - pos.1, y_max - pos.2)
    | .NZ => (pos.1, y_max - pos.2)
  rustCastU32 xy.1 + rustCastU32 xy.2 * res

/-- The §4.3 addressing table stated over integer UV coordinates, following
the spec's wording (`y_min = face_ordinal·resolution`,
`y_max = y_min+resolution-1`, `x_max = resolution-1`, final index
`x + y·resolution`).  Kept to compare with `address`. -/
def addressSpecTable (res : ℕ) (face : Face) (u v : ℕ) : ℕ :=
  let y_min := face.ord * res
  let y_max := y_min + (res - 1)
  let x_max := res - 1
  let xy : ℕ × ℕ :=
    match face with
    | .PX => (v, y_max - u)
    | .NX => (x_max - v, y_max - u)
    | .PY => (u, y_max - v)
    | .NY => (u, y_min + v)
    | .PZ => (x_max - u, y_max - v)
    | .NZ => (u, y_max - v)
  xy.1 + xy.2 * res

/-- One buffer element: `(f16, f16)` irradiance "Y" and temperature "T",
embedded as exact rationals. -/
structure PixelRecord where
  irradiance : ℚ
  temperature : ℚ
deriving DecidableEq, Repr

/-- Constant `half::consts::MAX` (the largest finite `f16`) converted to `f32`. -/
def F16_MAX : ℚ := 65504

/-- The body of the per-star update in `run`: read `old`, and when
`old_irradiance + irradiance > 0.0` write back the clamped total and the
irradiance-weighted temperature, otherwise leave the record as read. -/
def accumulate (old : PixelRecord) (irr temp : ℚ) : PixelRecord :=
  if 0 < old.irradiance + irr then
    { irradiance := min (old.irradiance + irr) F16_MAX,
      temperature := (old.temperature * old.irradiance + temp * irr)
        / (old.irradiance + irr) }
  else old

/-- The same update acting on the whole `pixel_data` buffer: the source
mutates `pixel_data[index]` in place only when the guard holds. -/
def accumStep (buf : List PixelRecord) (index : ℕ) (irr temp : ℚ) :
    List PixelRecord :=
  let old := buf.getD index ⟨0, 0⟩
  if 0 < old.irradiance + irr then
    buf.set index (accumulate old irr temp)
  else buf

end Starbox

namespace Starbox

/-- Reaching the Y-dominant branch forces `|x| ≤ |y|` and `0 < |y|`. -/
theorem y_branch_facts (x y z : ℚ) (h1 : ¬(|x| ≥ |y| ∧ |x| ≥ |z|))
    (h2 : |y| ≥ |z|) : |x| ≤ |y| ∧ 0 < |y| := by
  push_neg at h1
  by_cases hxy : |y| ≤ |x|
  · have hxz : |x| < |z| := h1 hxy
    constructor <;> linarith
  · push_neg at hxy
    exact ⟨le_of_lt hxy, lt_of_le_of_lt (abs_nonneg x) hxy⟩

/-- Reaching the Z-dominant branch forces `|z|` strictly dominant. -/
theorem z_branch_facts (x y z : ℚ) (h1 : ¬(|x| ≥ |y| ∧ |x| ≥ |z|))
    (h2 : ¬ |y| ≥ |z|) : |x| < |z| ∧ |y| < |z| ∧ 0 < |z| := by
  push_neg at h1 h2
  by_cases hxy : |y| ≤ |x|
  · exact ⟨h1 hxy, h2, lt_of_le_of_lt (abs_nonneg y) h2⟩
  · push_neg at hxy
    exact ⟨by linarith, h2, lt_of_le_of_lt (abs_nonneg y) h2⟩

/-- A component bounded in magnitude by the dominant one divides into
`[-1, 1]`. -/
theorem div_abs_bounds (u v : ℚ) (h : |u| ≤ |v|) (hv : 0 < |v|) :
    -1 ≤ u / |v| ∧ u / |v| ≤ 1 := by
  constructor
  · rw [le_div_iff₀ hv]
    have := neg_abs_le u
    linarith
  · rw [div_le_one hv]
    have := le_abs_self u
    linarith

/-- C1 counterexample: the source divides the remaining components by the
*absolute value* of the dominant component, not by the signed component as
the claim reads; at direction `(-1, 1, 0)` with resolution `3` the two
recipes give different UVs. -/
theorem project_signed_divisor_counterexample :
    project 3 (-1) 1 0 ≠ projectSpecSigned 3 (-1) 1 0 := by
  norm_num [project, projectSpecSigned]

/-- C1 amended: in every dominant-axis branch with nonzero dominant
magnitude, `project` divides the two remaining signed components by the
*absolute value* of the dominant component — yielding values in `[-1,1]` —
remaps each via `(v+1)/2·(resolution-1)`, and picks the `+` or `-` face
variant by the sign of the dominant component. -/
theorem project_divides_by_abs_dominant (res : ℕ) (x y z : ℚ) :
    (|x| ≥ |y| → |x| ≥ |z| → |x| ≠ 0 →
      project res x y z =
        ((if 0 < x then Face.PX else Face.NX),
          (remap res (y / |x|), remap res (z / |x|))) ∧
      -1 ≤ y / |x| ∧ y / |x| ≤ 1 ∧ -1 ≤ z / |x| ∧ z / |x| ≤ 1) ∧
    (¬(|x| ≥ |y| ∧ |x| ≥ |z|) → |y| ≥ |z| →
      project res x y z =
        ((if 0 < y then Face.PY else Face.NY),
          (remap res (x / |y|), remap res (z / |y|))) ∧
      -1 ≤ x / |y| ∧ x / |y| ≤ 1 ∧ -1 ≤ z / |y| ∧ z / |y| ≤ 1) ∧
    (¬(|x| ≥ |y| ∧ |x| ≥ |z|) → ¬(|y| ≥ |z|) →
      project res x y z =
        ((if 0 < z then Face.PZ else Face.NZ),
          (remap res (x / |z|), remap res (y / |z|))) ∧
      -1 ≤ x / |z| ∧ x / |z| ≤ 1 ∧ -1 ≤ y / |z| ∧ y / |z| ≤ 1) := by
  refine ⟨?_, ?_, ?_⟩
  · intro hxy hxz hx0
    have hx : 0 < |x| := lt_of_le_of_ne (abs_nonneg x) (Ne.symm hx0)
    have hb1 := div_abs_bounds y x hxy hx
    have hb2 := div_abs_bounds z x hxz hx
    refine ⟨?_, hb1.1, hb1.2, hb2.1, hb2.2⟩
    simp only [project, remap]
    rw [if_pos ⟨hxy, hxz⟩, if_neg hx0]
  · intro h1 h2
    obtain ⟨hxle, hy⟩ := y_branch_facts x y z h1 h2
    have hb1 := div_abs_bounds x y hxle hy
    have hb2 := div_abs_bounds z y h2 hy
    refine ⟨?_, hb1.1, hb1.2, hb2.1, hb2.2⟩
    simp only [project, remap]
    rw [if_neg h1, if_pos h2]
  · intro h1 h2
    obtain ⟨hxlt, hylt, hz⟩ := z_branch_facts x y z h1 h2
    have hb1 := div_abs_bounds x z (le_of_lt hxlt) hz
    have hb2 := div_abs_bounds y z (le_of_lt hylt) hz
    refine ⟨?_, hb1.1, hb1.2, hb2.1, hb2.2⟩
    simp only [project, remap]
    rw [if_neg h1, if_neg h2]

/-- Witness for `project_divides_by_abs_dominant` at resolution `3` and
direction `(-1, 1, 0)`. -/
theorem project_divides_by_abs_dominant_witness :
    project 3 (-1) 1 0 =
      ((if 0 < (-1 : ℚ) then Face.PX else Face.NX),
        (remap 3 ((1 : ℚ) / |(-1 : ℚ)|), remap 3 ((0 : ℚ) / |(-1 : ℚ)|))) ∧
    -1 ≤ (1 : ℚ) / |(-1 : ℚ)| ∧ (1 : ℚ) / |(-1 : ℚ)| ≤ 1 ∧
    -1 ≤ (0 : ℚ) / |(-1 : ℚ)| ∧ (0 : ℚ) / |(-1 : ℚ)| ≤ 1 :=
  (project_divides_by_abs_dominant 3 (-1) 1 0).1 (by norm_num) (by norm_num)
    (by norm_num)

/-- C6: face selection is total and follows the source's order — X-dominant
when `ax ≥ ay ∧ ax ≥ az`, else Y-dominant when `ay ≥ az`, else Z-dominant
(which is then strictly dominant); a tie `|x| = |y| > |z|` resolves to an X
face. -/
theorem project_face_selection (res : ℕ) (x y z : ℚ) :
    ((|x| ≥ |y| ∧ |x| ≥ |z|) →
      ((project res x y z).1 = Face.PX ∨ (project res x y z).1 = Face.NX)) ∧
    (¬(|x| ≥ |y| ∧ |x| ≥ |z|) → |y| ≥ |z| →
      ((project res x y z).1 = Face.PY ∨ (project res x y z).1 = Face.NY)) ∧
    (¬(|x| ≥ |y| ∧ |x| ≥ |z|) → ¬(|y| ≥ |z|) →
      (((project res x y z).1 = Face.PZ ∨ (project res x y z).1 = Face.NZ) ∧
        |x| < |z| ∧ |y| < |z|)) ∧
    ((|x| = |y| ∧ |z| < |x|) →
      ((project res x y z).1 = Face.PX ∨ (project res x y z).1 = Face.NX)) := by
  have hX : (|x| ≥ |y| ∧ |x| ≥ |z|) →
      ((project res x y z).1 = Face.PX ∨ (project res x y z).1 = Face.NX) := by
    intro h
    simp only [project]
    rw [if_pos h]
    split_ifs <;> simp
  refine ⟨hX, ?_, ?_, ?_⟩
  · intro h1 h2
    simp only [project]
    rw [if_neg h1, if_pos h2]
    split_ifs <;> simp
  · intro h1 h2
    obtain ⟨ha, hb, _⟩ := z_branch_facts x y z h1 h2
    refine ⟨?_, ha, hb⟩
    simp only [project]
    rw [if_neg h1, if_neg h2]
    split_ifs <;> simp
  · rintro ⟨hxy, hz⟩
    exact hX ⟨le_of_eq hxy.symm, le_of_lt hz⟩

/-- Witness for `project_face_selection`: the tie `|x| = |y| > |z|` at
direction `(1, 1, 0)`, resolution `128`, lands on an X face. -/
theorem project_face_selection_witness :
    (project 128 1 1 0).1 = Face.PX ∨ (project 128 1 1 0).1 = Face.NX :=
  (project_face_selection 128 1 1 0).2.2.2 ⟨rfl, by norm_num⟩

/-- The saturating cast is the identity on naturals. -/
theorem rustCastU32_natCast (n : ℕ) : rustCastU32 (n : ℚ) = n := by
  simp [rustCastU32]

/-- The saturating cast evaluates exact differences of naturals. -/
theorem rustCastU32_cast_sub (a b : ℕ) (h : b ≤ a) :
    rustCastU32 ((a : ℚ) - (b : ℚ)) = a - b := by
  rw [← Nat.cast_sub h, rustCastU32_natCast]

/-- C5: on integer UV coordinates inside the face, `address` computes
exactly the §4.3 table — `y_min = face_ordinal·resolution`,
`y_max = y_min+resolution-1`, `x_max = resolution-1`, the six per-face
`(x, y)` transforms, and the final index `x + y·resolution`. -/
theorem address_matches_spec_table (res : ℕ) (face : Face) (u v : ℕ)
    (hres : 1 ≤ res) (hu : u ≤ res - 1) (hv : v ≤ res - 1) :
    address res face ((u : ℚ), (v : ℚ)) = addressSpecTable res face u v := by
  have hcast : ((res : ℚ) - 1) = ((res - 1 : ℕ) : ℚ) := by
    rw [Nat.cast_sub hres, Nat.cast_one]
  have hyk : ∀ k : ℕ, ((k * res : ℕ) : ℚ) + ((res : ℚ) - 1) =
      ((k * res + (res - 1) : ℕ) : ℚ) := by
    intro k
    rw [hcast, Nat.cast_add]
  have hule : ∀ k : ℕ, u ≤ k * res + (res - 1) :=
    fun k => le_trans hu (Nat.le_add_left _ _)
  have hvle : ∀ k : ℕ, v ≤ k * res + (res - 1) :=
    fun k => le_trans hv (Nat.le_add_left _ _)
  cases face
  case PX =>
    simp only [address, addressSpecTable, Face.ord]
    rw [hyk 0, rustCastU32_natCast, rustCastU32_cast_sub _ _ (hule 0)]
  case NX =>
    simp only [address, addressSpecTable, Face.ord]
    rw [hyk 1, hcast, rustCastU32_cast_sub _ _ hv,
      rustCastU32_cast_sub _ _ (hule 1)]
  case PY =>
    simp only [address, addressSpecTable, Face.ord]
    rw [hyk 2, rustCastU32_natCast, rustCastU32_cast_sub _ _ (hvle 2)]
  case NY =>
    simp only [address, addressSpecTable, Face.ord]
    rw [← Nat.cast_add, rustCastU32_natCast, rustCastU32_natCast]
  case PZ =>
    simp only [address, addressSpecTable, Face.ord]
    rw [hyk 4, hcast, rustCastU32_cast_sub _ _ hu,
      rustCastU32_cast_sub _ _ (hvle 4)]
  case NZ =>
    simp only [address, addressSpecTable, Face.ord]
    rw [hyk 5, rustCastU32_natCast, rustCastU32_cast_sub _ _ (hvle 5)]

/-- Witness for `address_matches_spec_table`: the `(0,0)` corner of face
`-X` at resolution `4` sits at buffer coordinates `(3, 7)`, index `31`. -/
theorem address_matches_spec_table_witness :
    address 4 Face.NX ((0 : ℚ), (0 : ℚ)) = addressSpecTable 4 Face.NX 0 0 ∧
    addressSpecTable 4 Face.NX 0 0 = 31 :=
  ⟨address_matches_spec_table 4 Face.NX 0 0 (by norm_num) (by norm_num)
    (by norm_num), by decide⟩

/-- The spec remap sends `[-1, 1]` into `[0, res-1]`. -/
theorem remap_bounds (res : ℕ) (t : ℚ) (hres : 1 ≤ res) (h1 : -1 ≤ t)
    (h2 : t ≤ 1) : 0 ≤ remap res t ∧ remap res t ≤ (res : ℚ) - 1 := by
  have hr : (1 : ℚ) ≤ (res : ℚ) := by exact_mod_cast hres
  simp only [remap]
  constructor
  · apply mul_nonneg
    · linarith
    · linarith
  · have h3 : (t + 1) / 2 ≤ 1 := by linarith
    have h4 : (0 : ℚ) ≤ (res : ℚ) - 1 := by linarith
    calc (t + 1) / 2 * ((res : ℚ) - 1) ≤ 1 * ((res : ℚ) - 1) :=
          mul_le_mul_of_nonneg_right h3 h4
      _ = (res : ℚ) - 1 := one_mul _

/-- Every UV produced by `project` lies in `[0, res-1]²`. -/
theorem project_uv_bounds (res : ℕ) (x y z : ℚ) (hres : 1 ≤ res) :
    0 ≤ (project res x y z).2.1 ∧ (project res x y z).2.1 ≤ (res : ℚ) - 1 ∧
    0 ≤ (project res x y z).2.2 ∧ (project res x y z).2.2 ≤ (res : ℚ) - 1 := by
  have hr : (1 : ℚ) ≤ (res : ℚ) := by exact_mod_cast hres
  by_cases h1 : |x| ≥ |y| ∧ |x| ≥ |z|
  · by_cases h0 : |x| = 0
    · simp only [project]
      rw [if_pos h1, if_pos h0]
      have hz01 : (0 : ℚ) ≤ (res : ℚ) - 1 := by linarith
      exact ⟨le_refl 0, hz01, le_refl 0, hz01⟩
    · have hx : 0 < |x| := lt_of_le_of_ne (abs_nonneg x) (Ne.symm h0)
      have hb1 := div_abs_bounds y x h1.1 hx
      have hb2 := div_abs_bounds z x h1.2 hx
      have r1 := remap_bounds res (y / |x|) hres hb1.1 hb1.2
      have r2 := remap_bounds res (z / |x|) hres hb2.1 hb2.2
      simp only [project]
      rw [if_pos h1, if_neg h0]
      exact ⟨r1.1, r1.2, r2.1, r2.2⟩
  · by_cases h2 : |y| ≥ |z|
    · obtain ⟨hxle, hy⟩ := y_branch_facts x y z h1 h2
      have hb1 := div_abs_bounds x y hxle hy
      have hb2 := div_abs_bounds z y h2 hy
      have r1 := remap_bounds res (x / |y|) hres hb1.1 hb1.2
      have r2 := remap_bounds res (z / |y|) hres hb2.1 hb2.2
      simp only [project]
      rw [if_neg h1, if_pos h2]
      exact ⟨r1.1, r1.2, r2.1, r2.2⟩
    · obtain ⟨hxlt, hylt, hz⟩ := z_branch_facts x y z h1 h2
      have hb1 := div_abs_bounds x z (le_of_lt hxlt) hz
      have hb2 := div_abs_bounds y z (le_of_lt hylt) hz
      have r1 := remap_bounds res (x / |z|) hres hb1.1 hb1.2
      have r2 := remap_bounds res (y / |z|) hres hb2.1 hb2.2
      simp only [project]
      rw [if_neg h1, if_neg h2]
      exact ⟨r1.1, r1.2, r2.1, r2.2⟩

/-- The saturating cast respects rational upper bounds by naturals. -/
theorem rustCastU32_le_of_le (q : ℚ) (n : ℕ) (h : q ≤ (n : ℚ)) :
    rustCastU32 q ≤ n := by
  rw [rustCastU32]
  have hf : ⌊q⌋ ≤ (n : ℤ) := by
    have := Int.floor_le_floor h
    simpa using this
  omega

/-- Arithmetic core of the index bound. -/
theorem index_bound_aux (m cx cy : ℕ) (hx : cx ≤ m) (hy : cy ≤ 6 * m + 5) :
    cx + cy * (m + 1) < (m + 1) ^ 2 * 6 := by
  nlinarith [Nat.mul_le_mul_right (m + 1) hy]

set_option linter.unusedTactic false in
/-- Bound: `address` stays below `res² · 6` whenever the UV lies in
`[0, res-1]²`. -/
theorem address_index_lt (res : ℕ) (face : Face) (p : ℚ × ℚ) (hres : 1 ≤ res)
    (h1 : 0 ≤ p.1) (h2 : p.1 ≤ (res : ℚ) - 1) (h3 : 0 ≤ p.2)
    (h4 : p.2 ≤ (res : ℚ) - 1) :
    address res face p < res ^ 2 * 6 := by
  obtain ⟨m, rfl⟩ : ∃ m, res = m + 1 := ⟨res - 1, by omega⟩
  push_cast at h2 h4
  cases face
  case PX =>
    simp only [address, Face.ord]
    apply index_bound_aux m
    · apply rustCastU32_le_of_le
      push_cast
      linarith
    · apply rustCastU32_le_of_le
      push_cast
      linarith
  case NX =>
    simp only [address, Face.ord]
    apply index_bound_aux m
    · apply rustCastU32_le_of_le
      push_cast
      linarith
    · apply rustCastU32_le_of_le
      push_cast
      linarith
  case PY =>
    simp only [address, Face.ord]
    apply index_bound_aux m
    · apply rustCastU32_le_of_le
      push_cast
      linarith
    · apply rustCastU32_le_of_le
      push_cast
      linarith
  case NY =>
    simp only [address, Face.ord]
    apply index_bound_aux m
    · apply rustCastU32_le_of_le
      push_cast
      linarith
    · apply rustCastU32_le_of_le
      push_cast
      linarith
  case PZ =>
    simp only [address, Face.ord]
    apply index_bound_aux m
    · apply rustCastU32_le_of_le
      push_cast
      linarith
    · apply rustCastU32_le_of_le
      push_cast
      linarith
  case NZ =>
    simp only [address, Face.ord]
    apply index_bound_aux m
    · apply rustCastU32_le_of_le
      push_cast
      linarith
    · apply rustCastU32_le_of_le
      push_cast
      linarith

/-- C9: for every direction and resolution `≥ 1`, composing `project` and
`address` yields an index inside the flat buffer `[0, res² · 6)`. -/
theorem project_address_in_bounds (res : ℕ) (x y z : ℚ) (hres : 1 ≤ res)
    (_hnz : ¬(x = 0 ∧ y = 0 ∧ z = 0)) :
    address res (project res x y z).1 (project res x y z).2 < res ^ 2 * 6 := by
  obtain ⟨hb1, hb2, hb3, hb4⟩ := project_uv_bounds res x y z hres
  exact address_index_lt res _ _ hres hb1 hb2 hb3 hb4

/-- Witness for `project_address_in_bounds` at resolution `2` and direction
`(1, 0, 0)`. -/
theorem project_address_in_bounds_witness :
    ¬((1 : ℚ) = 0 ∧ (0 : ℚ) = 0 ∧ (0 : ℚ) = 0) ∧
    address 2 (project 2 1 0 0).1 (project 2 1 0 0).2 < 2 ^ 2 * 6 :=
  ⟨by norm_num, project_address_in_bounds 2 1 0 0 (by norm_num) (by norm_num)⟩

/-- C8: `project` applied to the all-zero direction returns face `+X` with
UV `(0,0)`: the X-dominant branch short-circuits on `ax == 0` instead of
dividing by zero. -/
theorem project_zero_vector (res : ℕ) :
    project res 0 0 0 = (Face.PX, (0, 0)) := by
  simp [project]

/-- Evaluation of `accumulate` when the guard passes and the clamp is slack. -/
theorem accumulate_eq (i0 t0 c Tc : ℚ) (h1 : 0 < i0 + c) (h2 : i0 + c ≤ F16_MAX) :
    accumulate ⟨i0, t0⟩ c Tc = ⟨i0 + c, (t0 * i0 + Tc * c) / (i0 + c)⟩ := by
  simp [accumulate, h1, min_eq_left h2]

/-- Evaluation of `accumulate` when the guard fails. -/
theorem accumulate_skip (p : PixelRecord) (c Tc : ℚ)
    (h : ¬ 0 < p.irradiance + c) :
    accumulate p c Tc = p := by
  simp [accumulate, h]

/-- Closed form of two consecutive accumulations with nonnegative
irradiances whose grand total stays below the clamp. -/
theorem accumulate_twice (i0 t0 a Ta b Tb : ℚ) (hi : 0 ≤ i0) (ha : 0 ≤ a)
    (hb : 0 ≤ b) (hmax : i0 + a + b ≤ F16_MAX) :
    accumulate (accumulate ⟨i0, t0⟩ a Ta) b Tb =
      if 0 < i0 + a + b then
        ⟨i0 + a + b, (t0 * i0 + Ta * a + Tb * b) / (i0 + a + b)⟩
      else ⟨i0, t0⟩ := by
  by_cases h1 : 0 < i0 + a
  · have hstep : accumulate ⟨i0, t0⟩ a Ta =
        ⟨i0 + a, (t0 * i0 + Ta * a) / (i0 + a)⟩ :=
      accumulate_eq i0 t0 a Ta h1 (by linarith)
    rw [hstep, accumulate_eq (i0 + a) _ b Tb (by linarith) (by linarith),
      if_pos (show 0 < i0 + a + b by linarith)]
    have hc : (t0 * i0 + Ta * a) / (i0 + a) * (i0 + a) = t0 * i0 + Ta * a :=
      div_mul_cancel₀ _ (ne_of_gt h1)
    simp only [PixelRecord.mk.injEq, hc, and_self]
  · have hi0 : i0 = 0 := by linarith
    have ha0 : a = 0 := by linarith
    subst hi0; subst ha0
    have hskip : accumulate ⟨0, t0⟩ 0 Ta = ⟨0, t0⟩ :=
      accumulate_skip ⟨0, t0⟩ 0 Ta (by norm_num)
    rw [hskip]
    by_cases h2 : 0 < b
    · rw [accumulate_eq 0 t0 b Tb (by linarith) (by linarith),
        if_pos (show (0 : ℚ) < 0 + 0 + b by linarith)]
      simp only [PixelRecord.mk.injEq]
      refine ⟨by ring, ?_⟩
      ring_nf
    · have hskip2 : accumulate ⟨0, t0⟩ b Tb = ⟨0, t0⟩ :=
        accumulate_skip ⟨0, t0⟩ b Tb (by simpa using h2)
      rw [hskip2, if_neg (by simpa using h2)]

/-- C2: for a pixel holding irradiance `a ≥ 0` and temperature `Ta`,
accumulating a star of irradiance `b` and temperature `Tb` with `a + b > 0`
stores the total `a + b` clamped to the largest finite `f16` value (hence
never exceeding it) and the weighted temperature `(Ta·a + Tb·b)/(a+b)`. -/
theorem accumulate_total_and_weighted_temperature
    (a Ta b Tb : ℚ) (_ha : 0 ≤ a) (hab : 0 < a + b) :
    accumulate ⟨a, Ta⟩ b Tb =
      ⟨min (a + b) F16_MAX, (Ta * a + Tb * b) / (a + b)⟩ ∧
    (accumulate ⟨a, Ta⟩ b Tb).irradiance ≤ F16_MAX := by
  constructor
  · simp [accumulate, hab]
  · simp [accumulate, hab]

/-- Witness for `accumulate_total_and_weighted_temperature` at
`a = 1, Ta = 2, b = 3, Tb = 4`. -/
theorem accumulate_total_and_weighted_temperature_witness :
    accumulate ⟨1, 2⟩ 3 4 = ⟨min (1 + 3 : ℚ) F16_MAX, (2 * 1 + 4 * 3) / (1 + 3)⟩ ∧
    (accumulate ⟨1, 2⟩ 3 4).irradiance ≤ F16_MAX :=
  accumulate_total_and_weighted_temperature 1 2 3 4 (by norm_num) (by norm_num)

/-- C3 counterexample: once the clamp to the largest finite `f16` value
engages, the accumulation order changes the stored temperature.  Starting
from an empty pixel, a star of irradiance `70000` and temperature `1`
followed by a star of irradiance `1` and temperature `0` stores a
different record than the opposite order. -/
theorem accumulate_order_dependent_counterexample :
    accumulate (accumulate ⟨0, 0⟩ 70000 1) 1 0 ≠
      accumulate (accumulate ⟨0, 0⟩ 1 0) 70000 1 := by
  norm_num [accumulate, F16_MAX]

/-- C3 amended: accumulating two stars with nonnegative irradiances into a
pixel with nonnegative irradiance yields, in either order, the identical
stored record, provided the combined total never exceeds the largest
finite `f16` value (so the clamp stays disengaged). -/
theorem accumulate_unclamped_order_independent (i0 t0 a Ta b Tb : ℚ)
    (hi : 0 ≤ i0) (ha : 0 ≤ a) (hb : 0 ≤ b) (hmax : i0 + a + b ≤ F16_MAX) :
    accumulate (accumulate ⟨i0, t0⟩ a Ta) b Tb =
      accumulate (accumulate ⟨i0, t0⟩ b Tb) a Ta := by
  rw [accumulate_twice i0 t0 a Ta b Tb hi ha hb hmax,
      accumulate_twice i0 t0 b Tb a Ta hi hb ha (by linarith)]
  have e1 : i0 + b + a = i0 + a + b := by ring
  have e2 : t0 * i0 + Tb * b + Ta * a = t0 * i0 + Ta * a + Tb * b := by ring
  rw [e1, e2]

/-- Witness for `accumulate_unclamped_order_independent` at
`i0 = 0, t0 = 0, a = 1, Ta = 2, b = 3, Tb = 4`. -/
theorem accumulate_unclamped_order_independent_witness :
    (0 : ℚ) + 1 + 3 ≤ F16_MAX ∧
      accumulate (accumulate ⟨0, 0⟩ 1 2) 3 4 =
        accumulate (accumulate ⟨0, 0⟩ 3 4) 1 2 :=
  ⟨by norm_num [F16_MAX],
    accumulate_unclamped_order_independent 0 0 1 2 3 4 (by norm_num)
      (by norm_num) (by norm_num) (by norm_num [F16_MAX])⟩

/-- C7: when the new total `old.irradiance + irr` is exactly zero the
accumulation step takes the guard's `else` path, performing no division and
leaving the record (in particular its temperature) unchanged. -/
theorem accumulate_zero_total_preserves_temperature
    (old : PixelRecord) (irr temp : ℚ) (h : old.irradiance + irr = 0) :
    accumulate old irr temp = old ∧
    (accumulate old irr temp).temperature = old.temperature := by
  have hng : ¬ 0 < old.irradiance + irr := by rw [h]; exact lt_irrefl 0
  constructor
  · simp [accumulate, hng]
  · simp [accumulate, hng]

/-- Witness for `accumulate_zero_total_preserves_temperature` at
`old = ⟨0, 5⟩, irr = 0, temp = 7`. -/
theorem accumulate_zero_total_preserves_temperature_witness :
    accumulate ⟨0, 5⟩ 0 7 = ⟨0, 5⟩ ∧
    (accumulate ⟨0, 5⟩ 0 7).temperature = (5 : ℚ) :=
  accumulate_zero_total_preserves_temperature ⟨0, 5⟩ 0 7 (by norm_num)

/-- C10: when the new total is not greater than zero, the buffer step
writes nothing: the target record and every other element are returned
exactly as they were. -/
theorem accumStep_no_write_when_nonpositive
    (buf : List PixelRecord) (index : ℕ) (irr temp : ℚ)
    (h : ¬ 0 < (buf.getD index ⟨0, 0⟩).irradiance + irr) :
    accumStep buf index irr temp = buf := by
  have h' : ¬ 0 < (buf[index]?.getD (⟨0, 0⟩ : PixelRecord)).irradiance + irr := by
    simpa [List.getD] using h
  simp [accumStep, h']

/-- Witness for `accumStep_no_write_when_nonpositive` on the one-element
buffer `[⟨0, 1⟩]` with `irr = 0`. -/
theorem accumStep_no_write_when_nonpositive_witness :
    accumStep [⟨0, 1⟩] 0 0 3 = [⟨0, 1⟩] :=
  accumStep_no_write_when_nonpositive [⟨0, 1⟩] 0 0 3 (by norm_num)

end Starbox
